import Mathlib

/-!
Verification of the aoc22 repository (src/day1.rs, src/day2.rs, src/day3.rs).

Shallow embedding conventions:
- a Rust string slice is modelled by its list of characters; the Rust byte
  length (str::len) is the sum of the UTF-8 sizes of the characters;
- Result<T, Report> is modelled as Option T where the claims never
  distinguish error values, and as Except Day3.Err T for day 3, whose claims
  talk about the distinct intersection/priority errors;
- HashSet<char> is modelled as a deduplicated list of characters: every
  observable use in the source (is_empty, contains, retain, iterating a
  0/1/2-element set to test its cardinality) depends only on the underlying
  set of elements, never on the hash iteration order;
- usize arithmetic never overflows on the inputs any claim touches, so
  calorie sums are plain naturals and usize parse overflow is not modelled;
- carriage returns never occur in any claim's input, so str::lines is
  modelled as splitting on the newline character with a trailing terminator
  producing no final empty line.
-/

namespace Aoc22

/-! ### Shared string model -/

/-- Rust `str::len`: the UTF-8 byte length of a string, computed from its
characters. -/
def byteLen (cs : List Char) : Nat :=
  (cs.map Char.utf8Size).sum

/-- Raw split of a character list on `'\n'` (every separator produces a
piece, including a trailing empty one). -/
def splitNl : List Char → List (List Char)
  | [] => [[]]
  | c :: rest =>
    if c = '\n' then [] :: splitNl rest
    else
      match splitNl rest with
      | [] => [[c]]
      | l :: ls => (c :: l) :: ls

/-- Rust `str::lines` on the characters of a string: no line at all for the
empty string, and a trailing newline terminates the last line instead of
opening an empty one. -/
def rustLines (s : String) : List (List Char) :=
  if s.data.isEmpty then []
  else if s.data.getLast? = some '\n' then (splitNl s.data).dropLast
  else splitNl s.data

/-! ### Day 1: calorie grouping and top-K selection (src/day1.rs) -/

namespace Day1

/-- Rust `line.parse::<usize>()`: an optional leading plus sign followed by
one or more ASCII digits (overflow is not modelled; see the header). -/
def parse_calories (line : List Char) : Option Nat :=
  let ds := match line with
    | '+' :: rest => rest
    | _ => line
  if ds ≠ [] ∧ ds.all (fun c => c.isDigit) then
    some (ds.foldl (fun n c => 10 * n + (c.toNat - 48)) 0)
  else none

/-- The `*elf += calories` update through `elves.last_mut()`: add `n` to the
last element of a nonempty list. -/
def addToLast (n : Nat) : List Nat → List Nat
  | [] => []
  | [e] => [e + n]
  | e :: rest => e :: addToLast n rest

/-- One iteration of the `try_fold` in `group_stashes`: a blank line pushes a
fresh 0 total, a number line is parsed and added to the last total (pushed as
a new total when there is none yet). -/
def groupStep (elves : List Nat) (food : List Char) : Option (List Nat) :=
  if food.isEmpty then some (elves ++ [0])
  else
    match parse_calories food with
    | none => none
    | some calories =>
      match elves with
      | [] => some [calories]
      | _ :: _ => some (addToLast calories elves)

/-- The `try_fold` of `group_stashes` over the already-split lines. -/
def group_stashes_lines (ls : List (List Char)) : Option (List Nat) :=
  ls.foldlM groupStep []

/-- Rust `group_stashes`. -/
def group_stashes (s : String) : Option (List Nat) :=
  group_stashes_lines (rustLines s)

/-- The inner for-loop of `multi_max`: overwrite the first buffer entry
strictly less than the incoming value, then stop (`break`). -/
def replaceFirstLess (x : Nat) : List Nat → List Nat
  | [] => []
  | b :: rest => if b < x then x :: rest else b :: replaceFirstLess x rest

/-- One iteration of `multi_max`'s outer loop: push while the buffer has room
otherwise replace, then `maxes.sort()` (ascending). -/
def multiMaxStep (count : Nat) (maxes : List Nat) (current : Nat) : List Nat :=
  let maxes' :=
    if maxes.length < count then maxes ++ [current]
    else replaceFirstLess current maxes
  maxes'.insertionSort (· ≤ ·)

/-- Rust `MultiMaxer::multi_max` at element type usize. -/
def multi_max (count : Nat) (l : List Nat) : List Nat :=
  l.foldl (multiMaxStep count) []

/-- Rust `day1::part1`: the largest group total, defaulting to 0
(`max().unwrap_or_default()`). -/
def part1 (s : String) : Option Nat :=
  (group_stashes s).map (fun stashes => stashes.max?.getD 0)

/-- Rust `day1::part2`: the sum of the top three group totals. -/
def part2 (s : String) : Option Nat :=
  (group_stashes s).map (fun stashes => (multi_max 3 stashes).sum)

/-- The K largest values of a list as the spec words it: sort descending and
keep the first K. Used only to compare `multi_max` against the claim. -/
def topKSpec (count : Nat) (l : List Nat) : List Nat :=
  (l.insertionSort (· ≥ ·)).take count

/-- Proof-side scan predicate: the values an ascending `orderedInsert` of `x`
passes over (those strictly below `x`). -/
def ltPred (x : Nat) : Nat → Bool := fun v => v < x

end Day1

/-! ### Day 2: rock/paper/scissors (src/day2.rs) -/

namespace Day2

inductive OpponentMove
  | Rock
  | Paper
  | Scissors
deriving DecidableEq, Fintype

inductive PlayerMove
  | Rock
  | Paper
  | Scissors
deriving DecidableEq, Fintype

/-- The result of a single round. -/
inductive Round
  | PlayerLose
  | Draw
  | PlayerWin
deriving DecidableEq, Fintype

/-- The constraint on the move the player should take. -/
inductive PlayerConstraint
  | Draw
  | PlayerWin
  | PlayerLose
deriving DecidableEq, Fintype

/-- The `PartialOrd<PlayerMove> for OpponentMove` table produced by the
`duplicate_item` macro (every branch wraps its answer in `Some`). -/
def opponentCmpPlayer : OpponentMove → PlayerMove → Option Ordering
  | .Rock, .Rock => some .eq
  | .Rock, .Paper => some .lt
  | .Rock, .Scissors => some .gt
  | .Paper, .Rock => some .gt
  | .Paper, .Paper => some .eq
  | .Paper, .Scissors => some .lt
  | .Scissors, .Rock => some .lt
  | .Scissors, .Paper => some .gt
  | .Scissors, .Scissors => some .eq

/-- The `PartialOrd<OpponentMove> for PlayerMove` table: the same match body,
duplicated by the same macro with the two types swapped. -/
def playerCmpOpponent : PlayerMove → OpponentMove → Option Ordering
  | .Rock, .Rock => some .eq
  | .Rock, .Paper => some .lt
  | .Rock, .Scissors => some .gt
  | .Paper, .Rock => some .gt
  | .Paper, .Paper => some .eq
  | .Paper, .Scissors => some .lt
  | .Scissors, .Rock => some .lt
  | .Scissors, .Paper => some .gt
  | .Scissors, .Scissors => some .eq

/-- The `PartialEq<PlayerConstraint> for Round` table (duplicate_item). -/
def roundEqConstraint : Round → PlayerConstraint → Bool
  | .Draw, .Draw => true
  | .PlayerWin, .PlayerWin => true
  | .PlayerLose, .PlayerLose => true
  | _, _ => false

/-- Rust `evaluate_round`. `none` models the `unreachable!()` panic taken when
`partial_cmp` returns `None`; `evaluate_round_total` below shows it is never
reached. -/
def evaluate_round (opponent : OpponentMove) (player : PlayerMove) : Option Round :=
  match opponentCmpPlayer opponent player with
  | some .lt => some .PlayerWin
  | some .eq => some .Draw
  | some .gt => some .PlayerLose
  | none => none

/-- The predicate of `desired_move`'s loop:
`evaluate_round(opponent, possible_move) == constraint`. -/
def matchesConstraint (opponent : OpponentMove) (constraint : PlayerConstraint)
    (m : PlayerMove) : Bool :=
  match evaluate_round opponent m with
  | some r => roundEqConstraint r constraint
  | none => false

/-- Rust `desired_move`: iterate `PlayerMove::iter()` (declaration order Rock,
Paper, Scissors) and return the first matching move; `none` models the
`bail!` resolution error. -/
def desired_move (opponent : OpponentMove) (constraint : PlayerConstraint) :
    Option PlayerMove :=
  [PlayerMove.Rock, PlayerMove.Paper, PlayerMove.Scissors].find?
    (matchesConstraint opponent constraint)

/-- Rust `OpponentMove::parse` on `chars.next()`. -/
def OpponentMove.parse : Option Char → Option OpponentMove
  | some c =>
    if c = 'A' then some .Rock
    else if c = 'B' then some .Paper
    else if c = 'C' then some .Scissors
    else none
  | none => none

/-- Rust `PlayerMove::parse` on `chars.next()`. -/
def PlayerMove.parse : Option Char → Option PlayerMove
  | some c =>
    if c = 'X' then some .Rock
    else if c = 'Y' then some .Paper
    else if c = 'Z' then some .Scissors
    else none
  | none => none

/-- Rust `PlayerConstraint::parse` on `chars.next()`. -/
def PlayerConstraint.parse : Option Char → Option PlayerConstraint
  | some c =>
    if c = 'X' then some .PlayerLose
    else if c = 'Y' then some .Draw
    else if c = 'Z' then some .PlayerWin
    else none
  | none => none

/-- The shared body of Rust `parse_round` and `parse_constraint` (the two
functions are textual duplicates up to the second token's parser): require a
3-byte line, take the first character as the opponent token, skip one
character, and parse the third character with `second`. -/
def parseLine {β : Type} (second : Option Char → Option β) (cs : List Char) :
    Option (OpponentMove × β) :=
  if byteLen cs = 3 then
    match OpponentMove.parse cs[0]? with
    | none => none
    | some opponent =>
      match second cs[2]? with
      | none => none
      | some player => some (opponent, player)
  else none

/-- Rust `parse_round`. -/
def parse_round (cs : List Char) : Option (OpponentMove × PlayerMove) :=
  parseLine PlayerMove.parse cs

/-- Rust `parse_constraint`. -/
def parse_constraint (cs : List Char) : Option (OpponentMove × PlayerConstraint) :=
  parseLine PlayerConstraint.parse cs

end Day2

/-! ### Day 3: rucksack priorities (src/day3.rs) -/

namespace Day3

/-- The distinct failure messages of day 3 (`bail!`/`ensure!` sites), plus
`splitPanic` for the index panic of `split_at` on a non-character boundary
(a Rust panic, not an `Err`; no claim reaches it). -/
inductive Err
  | noIntersection
  | ambiguousIntersection
  | noPriority
  | splitPanic
deriving DecidableEq

/-- The `PRIORITY` table: `('a'..='z').chain('A'..='Z').enumerate()` mapped to
`(char, index + 1)` pairs; the `HashMap` is modelled by association-list
lookup (all 52 keys are distinct). -/
def priorityPairs : List (Char × Nat) :=
  (((List.range 26).map (fun i => Char.ofNat (97 + i))) ++
      ((List.range 26).map (fun i => Char.ofNat (65 + i)))).enum.map
    (fun p => (p.2, p.1 + 1))

/-- Rust `calculate_priority`: `PRIORITY.get(item_type)` or the
`no priority for item type` error. -/
def calculate_priority (c : Char) : Except Err Nat :=
  match priorityPairs.lookup c with
  | some p => Except.ok p
  | none => Except.error Err.noPriority

/-- Rust `Rucksack`: the original line and its computed priority. -/
structure Rucksack where
  contents : List Char
  priority : Nat
deriving DecidableEq

/-- Rust `Compartment::parse`: the characters of a half as a set. -/
def compartment (cs : List Char) : List Char :=
  cs.dedup

/-- Rust `Rucksack::calculate_item_type`: the intersection of the two
compartment sets must hold exactly one element. -/
def calculate_item_type (first second : List Char) : Except Err Char :=
  match first.filter (fun c => second.contains c) with
  | [] => Except.error Err.noIntersection
  | [c] => Except.ok c
  | _ => Except.error Err.ambiguousIntersection

/-- Rust `str::split_at` at a byte index on the characters of the string:
`none` when the index is not a character boundary (where Rust panics). The
index used by the source is `len / 2 ≤ len`, so the out-of-range panic case
also lands in `none`. -/
def splitAtByte : Nat → List Char → Option (List Char × List Char)
  | 0, cs => some ([], cs)
  | _ + 1, [] => none
  | n + 1, c :: cs =>
    if c.utf8Size ≤ n + 1 then
      (splitAtByte (n + 1 - c.utf8Size) cs).map (fun p => (c :: p.1, p.2))
    else none

/-- Rust `Rucksack::parse`: split the line at half its byte length, require
exactly one character common to the two compartments, and look its priority
up. -/
def Rucksack.parse (input : List Char) : Except Err Rucksack :=
  match splitAtByte (byteLen input / 2) input with
  | none => Except.error Err.splitPanic
  | some (first, second) =>
    match calculate_item_type (compartment first) (compartment second) with
    | Except.error e => Except.error e
    | Except.ok item_type =>
      match calculate_priority item_type with
      | Except.error e => Except.error e
      | Except.ok priority => Except.ok ⟨input, priority⟩

/-- Rust `Group::parse`: parse every line of the chunk as a rucksack. -/
def group_parse (lines : List (List Char)) : Except Err (List Rucksack) :=
  lines.mapM Rucksack.parse

/-- Rust `Group::score`: fold the rucksacks' full character sets with
`retain`, seeding from the accumulator-is-empty test, then require the result
to hold exactly one element and look its priority up. -/
def group_score (rucksacks : List Rucksack) : Except Err Nat :=
  let inter := rucksacks.foldl
    (fun acc sack =>
      let contents := sack.contents.dedup
      if acc.isEmpty then contents
      else acc.filter (fun c => contents.contains c))
    []
  match inter with
  | [] => Except.error Err.noIntersection
  | [c] => calculate_priority c
  | _ => Except.error Err.ambiguousIntersection

/-- Itertools `chunks(3)` over the lines: full chunks of three, with a final
shorter chunk when the line count is not a multiple of three. -/
def chunks3 {α : Type} : List α → List (List α)
  | [] => []
  | [a] => [[a]]
  | [a, b] => [[a, b]]
  | a :: b :: c :: rest => [a, b, c] :: chunks3 rest

/-- Rust `score_rucksacks`. -/
def score_rucksacks (sacks : List Rucksack) : Nat :=
  (sacks.map Rucksack.priority).sum

/-- Rust `day3::part1`. -/
def part1 (s : String) : Except Err Nat :=
  match (rustLines s).mapM Rucksack.parse with
  | Except.error e => Except.error e
  | Except.ok sacks => Except.ok (score_rucksacks sacks)

/-- Rust `score_groups`. -/
def score_groups (groups : List (List Rucksack)) : Except Err Nat :=
  match groups.mapM group_score with
  | Except.error e => Except.error e
  | Except.ok scores => Except.ok scores.sum

/-- Rust `day3::part2`. -/
def part2 (s : String) : Except Err Nat :=
  match (chunks3 (rustLines s)).mapM group_parse with
  | Except.error e => Except.error e
  | Except.ok groups => score_groups groups

end Day3

/-! ### General list lemmas -/

theorem takeWhile_eq_take_len {α : Type} (p : α → Bool) (l : List α) :
    l.takeWhile p = l.take (l.takeWhile p).length := by
  induction l with
  | nil => rfl
  | cons c t ih =>
    rw [List.takeWhile_cons]
    by_cases h : p c = true
    · simp only [if_pos h, List.length_cons, List.take_succ_cons]
      rw [← ih]
    · simp [if_neg h]

theorem dropWhile_eq_drop_len {α : Type} (p : α → Bool) (l : List α) :
    l.dropWhile p = l.drop (l.takeWhile p).length := by
  induction l with
  | nil => rfl
  | cons c t ih =>
    rw [List.dropWhile_cons, List.takeWhile_cons]
    by_cases h : p c = true
    · simp only [if_pos h, List.length_cons, List.drop_succ_cons]
      exact ih
    · simp [if_neg h]

theorem takeWhile_length_le {α : Type} (p : α → Bool) (l : List α) (m : Nat) (b : α)
    (hb : l[m]? = some b) (hp : p b = false) :
    (l.takeWhile p).length ≤ m := by
  induction l generalizing m with
  | nil => simp at hb
  | cons c t ih =>
    rw [List.takeWhile_cons]
    cases m with
    | zero =>
      rw [List.getElem?_cons_zero] at hb
      cases hb
      simp [hp]
    | succ m' =>
      by_cases h : p c = true
      · simp only [if_pos h, List.length_cons]
        rw [List.getElem?_cons_succ] at hb
        have := ih m' hb
        omega
      · simp [if_neg h]

theorem le_takeWhile_length {α : Type} (p : α → Bool) (l : List α) (m : Nat)
    (hm : m ≤ l.length) (h : ∀ a ∈ l.take m, p a = true) :
    m ≤ (l.takeWhile p).length := by
  induction l generalizing m with
  | nil => simpa using hm
  | cons c t ih =>
    cases m with
    | zero => exact Nat.zero_le _
    | succ m' =>
      have hc : p c = true := h c (by simp [List.take_succ_cons])
      rw [List.takeWhile_cons, if_pos hc]
      simp only [List.length_cons]
      have hm' : m' ≤ t.length := by simpa using hm
      have := ih m' hm' (fun a ha => h a (by simp [List.take_succ_cons, ha]))
      omega

theorem takeWhile_index_true {α : Type} (p : α → Bool) (l : List α) (i : Nat) (b : α)
    (hb : l[i]? = some b) (hi : i < (l.takeWhile p).length) : p b = true := by
  induction l generalizing i b with
  | nil => simp at hb
  | cons c t ih =>
    rw [List.takeWhile_cons] at hi
    by_cases hc : p c = true
    · cases i with
      | zero =>
        rw [List.getElem?_cons_zero] at hb
        cases hb
        exact hc
      | succ i' =>
        rw [List.getElem?_cons_succ] at hb
        rw [if_pos hc, List.length_cons] at hi
        exact ih i' b hb (by omega)
    · rw [if_neg hc] at hi
      simp at hi

theorem get_takeWhile_len_false {α : Type} (p : α → Bool) (l : List α) (b : α)
    (hb : l[(l.takeWhile p).length]? = some b) : p b = false := by
  induction l generalizing b with
  | nil => simp at hb
  | cons c t ih =>
    by_cases hc : p c = true
    · rw [List.takeWhile_cons, if_pos hc, List.length_cons,
        List.getElem?_cons_succ] at hb
      exact ih b hb
    · have hc' : p c = false := by revert hc; cases p c <;> simp
      rw [List.takeWhile_cons, if_neg (by simp [hc']), List.length_nil,
        List.getElem?_cons_zero] at hb
      cases hb
      exact hc'

/-! ### Sorted-list helpers for `multi_max` -/

theorem sorted_drop {l : List Nat} (h : List.Sorted (· ≤ ·) l) (n : Nat) :
    List.Sorted (· ≤ ·) (l.drop n) :=
  List.Pairwise.sublist (List.drop_sublist n l) h

theorem insertionSort_append_singleton (l : List Nat) (x : Nat) :
    (l ++ [x]).insertionSort (· ≤ ·)
      = List.orderedInsert (· ≤ ·) x (l.insertionSort (· ≤ ·)) := by
  refine List.eq_of_perm_of_sorted ?_ (List.sorted_insertionSort _ _)
    (List.Sorted.orderedInsert x _ (List.sorted_insertionSort _ l))
  exact (List.perm_insertionSort _ _).trans <|
    (List.perm_append_singleton x l).trans <|
      ((List.perm_insertionSort _ l).symm.cons x).trans
        (List.perm_orderedInsert _ x _).symm

theorem replaceFirstLess_of_forall (x : Nat) (l : List Nat)
    (h : ∀ a ∈ l, ¬ a < x) : Day1.replaceFirstLess x l = l := by
  induction l with
  | nil => rfl
  | cons b rest ih =>
    rw [Day1.replaceFirstLess, if_neg (h b (by simp))]
    rw [ih (fun a ha => h a (by simp [ha]))]


/-- An ascending `orderedInsert` passes exactly over the values strictly
below the inserted one. -/
theorem orderedInsert_take_drop (x : Nat) (l : List Nat) :
    List.orderedInsert (· ≤ ·) x l
      = l.takeWhile (Day1.ltPred x) ++ x :: l.dropWhile (Day1.ltPred x) := by
  induction l with
  | nil => rfl
  | cons b t ih =>
    simp only [List.orderedInsert, List.takeWhile_cons, List.dropWhile_cons]
    by_cases h : x ≤ b
    · have hp : ¬ (Day1.ltPred x b = true) := by
        simp only [Day1.ltPred, decide_eq_true_eq]
        omega
      rw [if_pos h, if_neg hp, if_neg hp]
      rfl
    · have hp : Day1.ltPred x b = true := by
        simp only [Day1.ltPred, decide_eq_true_eq]
        omega
      rw [if_neg h, if_pos hp, if_pos hp, ih, List.cons_append]

/-- The key invariant step: feeding `x` into the buffer holding the last `k`
entries of the sorted list of values seen so far yields the last `k` entries
of that sorted list with `x` inserted. -/
theorem multiMaxStep_drop (k : Nat) (s : List Nat) (hs : List.Sorted (· ≤ ·) s)
    (x : Nat) :
    Day1.multiMaxStep k (s.drop (s.length - k)) x
      = (List.orderedInsert (· ≤ ·) x s).drop (s.length + 1 - k) := by
  rw [Day1.multiMaxStep]
  by_cases hnk : s.length < k
  · have h0 : s.length - k = 0 := by omega
    have h1 : s.length + 1 - k = 0 := by omega
    rw [h0, h1, List.drop_zero, List.drop_zero, if_pos (by omega)]
    rw [insertionSort_append_singleton, hs.insertionSort_eq]
  · have hlen : (s.drop (s.length - k)).length = k := by
      rw [List.length_drop]; omega
    rw [if_neg (by omega)]
    cases k with
    | zero =>
      rw [Nat.sub_zero, List.drop_length]
      symm
      apply List.drop_eq_nil_of_le
      rw [List.orderedInsert_length]
      omega
    | succ k' =>
      cases hbuf : s.drop (s.length - (k' + 1)) with
      | nil => rw [hbuf] at hlen; simp at hlen
      | cons b t =>
        have hsorted_buf : List.Sorted (· ≤ ·) (b :: t) := hbuf ▸ sorted_drop hs _
        have hmn : s.length - (k' + 1) < s.length := by omega
        have ht : t = s.drop (s.length - (k' + 1) + 1) := by
          have h := List.tail_drop s (s.length - (k' + 1))
          rw [hbuf] at h
          simpa using h
        have hb : s[s.length - (k' + 1)]? = some b := by
          have h := List.getElem?_drop s (s.length - (k' + 1)) 0
          rw [hbuf] at h
          simpa using h.symm
        rw [orderedInsert_take_drop]
        by_cases hxb : x ≤ b
        · -- the incoming value is at most every buffer entry: discarded
          have hrep : Day1.replaceFirstLess x (b :: t) = b :: t := by
            rw [Day1.replaceFirstLess, if_neg (by omega)]
            rw [replaceFirstLess_of_forall x t
              (fun a ha => by have := List.rel_of_sorted_cons hsorted_buf a ha; omega)]
          rw [hrep, hsorted_buf.insertionSort_eq]
          have hj : (s.takeWhile (Day1.ltPred x)).length ≤ s.length - (k' + 1) := by
            refine takeWhile_length_le _ s _ b hb ?_
            simp only [Day1.ltPred, decide_eq_false_iff_not]
            omega
          rw [List.drop_append_eq_append_drop]
          rw [List.drop_eq_nil_of_le
            (show (s.takeWhile (Day1.ltPred x)).length ≤ s.length + 1 - (k' + 1) from by omega)]
          rw [List.nil_append]
          rw [show s.length + 1 - (k' + 1) - (s.takeWhile (Day1.ltPred x)).length
              = (s.length - (k' + 1) - (s.takeWhile (Day1.ltPred x)).length) + 1 from by omega]
          rw [List.drop_succ_cons]
          rw [dropWhile_eq_drop_len (Day1.ltPred x) s, List.drop_drop]
          rw [show (s.takeWhile (Day1.ltPred x)).length
                + (s.length - (k' + 1) - (s.takeWhile (Day1.ltPred x)).length)
              = s.length - (k' + 1) from by omega]
          exact hbuf.symm
        · -- the incoming value beats the least buffer entry: replace it
          have hbx : b < x := by omega
          rw [Day1.replaceFirstLess, if_pos hbx]
          have hsort_t : List.Sorted (· ≤ ·) t := hsorted_buf.of_cons
          rw [List.insertionSort, hsort_t.insertionSort_eq, orderedInsert_take_drop]
          have hgb : s[s.length - (k' + 1)] = b := by
            have h2 := List.getElem?_eq_getElem (l := s) hmn
            rw [hb] at h2
            exact (Option.some_inj.mp h2).symm
          have hjge : s.length + 1 - (k' + 1) ≤ (s.takeWhile (Day1.ltPred x)).length := by
            refine le_takeWhile_length _ s _ (by omega) ?_
            intro a ha
            obtain ⟨i, hi, rfl⟩ := List.getElem_of_mem ha
            have him : i < s.length + 1 - (k' + 1) := by
              have := List.length_take (s.length + 1 - (k' + 1)) s
              omega
            have hisn : i < s.length := by omega
            rw [List.getElem_take]
            have hsib : s[i] ≤ b := by
              rcases Nat.lt_or_ge i (s.length - (k' + 1)) with hlt | hge
              · have hp := List.pairwise_iff_get.mp hs ⟨i, hisn⟩
                  ⟨s.length - (k' + 1), hmn⟩ (by simpa using hlt)
                simp only [List.get_eq_getElem] at hp
                rw [hgb] at hp
                exact hp
              · have hieq : i = s.length - (k' + 1) := by omega
                have h3 : s[i]? = some b := by rw [hieq]; exact hb
                have h4 := List.getElem?_eq_getElem hisn
                rw [h3] at h4
                exact le_of_eq (Option.some_inj.mp h4).symm
            simp only [Day1.ltPred, decide_eq_true_eq]
            omega
          have hjle : (s.takeWhile (Day1.ltPred x)).length ≤ s.length :=
            List.Sublist.length_le (List.takeWhile_sublist _)
          have ht' : t = s.drop (s.length + 1 - (k' + 1)) := by
            rw [ht]
            congr 1
            omega
          have htlen : t.length = s.length - (s.length + 1 - (k' + 1)) := by
            rw [ht', List.length_drop]
          have hcen : (t.takeWhile (Day1.ltPred x)).length
              = (s.takeWhile (Day1.ltPred x)).length - (s.length + 1 - (k' + 1)) := by
            refine Nat.le_antisymm ?_ ?_
            · by_cases hjn : (s.takeWhile (Day1.ltPred x)).length < s.length
              · have hsj : s[(s.takeWhile (Day1.ltPred x)).length]?
                    = some (s.get ⟨(s.takeWhile (Day1.ltPred x)).length, hjn⟩) := by
                  rw [List.get_eq_getElem]
                  exact List.getElem?_eq_getElem hjn
                refine takeWhile_length_le _ t _
                  (s.get ⟨(s.takeWhile (Day1.ltPred x)).length, hjn⟩) ?_ ?_
                · rw [ht', List.getElem?_drop]
                  rw [show s.length + 1 - (k' + 1)
                      + ((s.takeWhile (Day1.ltPred x)).length - (s.length + 1 - (k' + 1)))
                      = (s.takeWhile (Day1.ltPred x)).length from by omega]
                  exact hsj
                · exact get_takeWhile_len_false (Day1.ltPred x) s _ hsj
              · have h1 := List.Sublist.length_le
                  (List.takeWhile_sublist (Day1.ltPred x) (l := t))
                omega
            · refine le_takeWhile_length _ t _ (by omega) ?_
              intro a ha
              obtain ⟨i, hi, rfl⟩ := List.getElem_of_mem ha
              have hi' : i < (s.takeWhile (Day1.ltPred x)).length
                  - (s.length + 1 - (k' + 1)) := by
                have h1 := List.length_take
                  ((s.takeWhile (Day1.ltPred x)).length - (s.length + 1 - (k' + 1))) t
                have h2 := inf_le_left (a := (s.takeWhile (Day1.ltPred x)).length
                  - (s.length + 1 - (k' + 1))) (b := t.length)
                omega
              have hit : i < t.length := by omega
              rw [List.getElem_take]
              have hti : t[i]? = some t[i] := List.getElem?_eq_getElem hit
              have hsmi : s[s.length + 1 - (k' + 1) + i]? = some t[i] := by
                rw [← List.getElem?_drop, ← ht']
                exact hti
              refine takeWhile_index_true (Day1.ltPred x) s _ _ hsmi (by omega)
          have hA := takeWhile_eq_take_len (Day1.ltPred x) s
          have hB := dropWhile_eq_drop_len (Day1.ltPred x) s
          have htA := takeWhile_eq_take_len (Day1.ltPred x) t
          have htB := dropWhile_eq_drop_len (Day1.ltPred x) t
          rw [hcen] at htA htB
          obtain ⟨J, hJ⟩ : ∃ J, (s.takeWhile (Day1.ltPred x)).length = J := ⟨_, rfl⟩
          rw [hJ] at hA hB htA htB hjge hjle
          rw [htA, htB, hA, hB]
          rw [List.drop_append_eq_append_drop]
          have hmin : s.length + 1 - (k' + 1) ≤ (s.take J).length := by
            rw [List.length_take]
            exact le_inf hjge (by omega)
          rw [Nat.sub_eq_zero_of_le hmin, List.drop_zero, List.drop_take, ← ht']
          rw [ht', List.drop_drop]
          rw [show s.length + 1 - (k' + 1) + (J - (s.length + 1 - (k' + 1))) = J from by
            omega]


/-- The exact behaviour of `multi_max`: it returns the last `k` entries of the
ascending sort of its input. -/
theorem multi_max_eq_drop (k : Nat) (l : List Nat) :
    Day1.multi_max k l = (l.insertionSort (· ≤ ·)).drop (l.length - k) := by
  induction l using List.reverseRecOn with
  | nil => simp [Day1.multi_max]
  | append_singleton l x ih =>
    have hfold : Day1.multi_max k (l ++ [x])
        = Day1.multiMaxStep k (Day1.multi_max k l) x := by
      rw [Day1.multi_max, Day1.multi_max, List.foldl_append, List.foldl_cons,
        List.foldl_nil]
    have hstep := multiMaxStep_drop k (l.insertionSort (· ≤ ·))
      (List.sorted_insertionSort _ l) x
    rw [List.length_insertionSort] at hstep
    rw [← insertionSort_append_singleton] at hstep
    rw [hfold, ih, hstep]
    rw [show (l ++ [x]).length = l.length + 1 from by simp]

/-- Sorting descending is reversing the ascending sort. -/
theorem sortDesc_eq_reverse (l : List Nat) :
    l.insertionSort (· ≥ ·) = (l.insertionSort (· ≤ ·)).reverse := by
  refine List.eq_of_perm_of_sorted ?_ (List.sorted_insertionSort _ l) ?_
  · exact (List.perm_insertionSort _ l).trans
      ((List.perm_insertionSort _ l).symm.trans
        (List.reverse_perm (l.insertionSort (· ≤ ·))).symm)
  · have hp := List.sorted_insertionSort (· ≤ ·) l
    exact List.pairwise_reverse.mpr hp

/-- The buffer contents are a permutation of the true top-K of the input. -/
theorem topKSpec_perm (k : Nat) (l : List Nat) :
    (Day1.multi_max k l).Perm (Day1.topKSpec k l) := by
  rw [multi_max_eq_drop, Day1.topKSpec, sortDesc_eq_reverse]
  refine (List.reverse_perm _).symm.trans ?_
  rw [List.reverse_drop]
  rcases le_or_lt k l.length with hk | hk
  · rw [show (l.insertionSort (· ≤ ·)).length - (l.length - k) = k from by
      rw [List.length_insertionSort]; omega]
  · rw [show (l.insertionSort (· ≤ ·)).length - (l.length - k)
        = (l.insertionSort (· ≤ ·)).length from by
      rw [List.length_insertionSort]; omega]
    rw [List.take_of_length_le (List.length_reverse (l.insertionSort (· ≤ ·))).le]
    rw [List.take_of_length_le (by
      rw [List.length_reverse, List.length_insertionSort]; omega :
        ((l.insertionSort (· ≤ ·)).reverse).length ≤ k)]

/-- `multi_max` only depends on the multiset of its input. -/
theorem multi_max_perm_eq (k : Nat) {S T : List Nat} (h : S.Perm T) :
    Day1.multi_max k S = Day1.multi_max k T := by
  rw [multi_max_eq_drop, multi_max_eq_drop, h.length_eq]
  congr 1
  exact List.eq_of_perm_of_sorted
    ((List.perm_insertionSort _ S).trans
      (h.trans (List.perm_insertionSort _ T).symm))
    (List.sorted_insertionSort _ _) (List.sorted_insertionSort _ _)

/-- C1: for every K at least 1 and every finite sequence S of naturals,
`multi_max` returns a non-decreasing sequence of length `min K |S|` whose
elements are multiset-equal to the K largest elements of S, and whose sum is
the same for every permutation of S. -/
theorem c1_multi_max_topk (k : Nat) (S : List Nat) (hk : 1 ≤ k) :
    List.Sorted (· ≤ ·) (Day1.multi_max k S) ∧
    (Day1.multi_max k S).length = min k S.length ∧
    (Day1.multi_max k S).Perm (Day1.topKSpec k S) ∧
    ∀ T : List Nat, T.Perm S → (Day1.multi_max k T).sum = (Day1.multi_max k S).sum := by
  refine ⟨?_, ?_, topKSpec_perm k S, ?_⟩
  · rw [multi_max_eq_drop]
    exact sorted_drop (List.sorted_insertionSort _ S) _
  · rw [multi_max_eq_drop, List.length_drop, List.length_insertionSort]
    omega
  · intro T h
    rw [multi_max_perm_eq k h]

/-- Witness for C1 at K = 3 and the input of the repository's own
`test_multi_max`. -/
theorem c1_multi_max_topk_witness :
    1 ≤ 3 ∧
    (List.Sorted (· ≤ ·) (Day1.multi_max 3 [100, 200, 300, 400, 100, 500]) ∧
     (Day1.multi_max 3 [100, 200, 300, 400, 100, 500]).length
        = min 3 ([100, 200, 300, 400, 100, 500] : List Nat).length ∧
     (Day1.multi_max 3 [100, 200, 300, 400, 100, 500]).Perm
        (Day1.topKSpec 3 [100, 200, 300, 400, 100, 500]) ∧
     ∀ T : List Nat, T.Perm [100, 200, 300, 400, 100, 500] →
       (Day1.multi_max 3 T).sum
          = (Day1.multi_max 3 [100, 200, 300, 400, 100, 500]).sum) :=
  ⟨by omega, c1_multi_max_topk 3 [100, 200, 300, 400, 100, 500] (by omega)⟩

/-- The `unreachable!()` branch of `evaluate_round` is never taken. -/
theorem evaluate_round_total :
    ∀ (o : Day2.OpponentMove) (p : Day2.PlayerMove),
      (Day2.evaluate_round o p).isSome = true := by decide

/-- C2: constraint resolution iterates the moves in the order Rock, Paper,
Scissors, returns the first (here: unique) move whose evaluated outcome
matches the constraint, that move satisfies the constraint, and the
resolution-error branch is unreachable. -/
theorem c2_desired_move_resolution :
    ∀ (o : Day2.OpponentMove) (c : Day2.PlayerConstraint),
      Day2.desired_move o c
          = [Day2.PlayerMove.Rock, Day2.PlayerMove.Paper,
              Day2.PlayerMove.Scissors].find? (Day2.matchesConstraint o c) ∧
      ∃ m : Day2.PlayerMove, Day2.desired_move o c = some m ∧
        (∃ r : Day2.Round, Day2.evaluate_round o m = some r ∧
          Day2.roundEqConstraint r c = true) ∧
        ∀ m' : Day2.PlayerMove, Day2.matchesConstraint o c m' = true → m' = m := by
  decide

/-- C6: both comparison tables are total, each pair is related in exactly one
way, and the two comparison directions are mirror images of each other. -/
theorem c6_cmp_mirror_total :
    ∀ (a : Day2.OpponentMove) (b : Day2.PlayerMove),
      (Day2.opponentCmpPlayer a b).isSome = true ∧
      (Day2.playerCmpOpponent b a).isSome = true ∧
      ((Day2.opponentCmpPlayer a b = some Ordering.gt ∨
        Day2.opponentCmpPlayer a b = some Ordering.lt ∨
        Day2.opponentCmpPlayer a b = some Ordering.eq) ∧
       ¬(Day2.opponentCmpPlayer a b = some Ordering.gt ∧
          Day2.opponentCmpPlayer a b = some Ordering.lt) ∧
       ¬(Day2.opponentCmpPlayer a b = some Ordering.gt ∧
          Day2.opponentCmpPlayer a b = some Ordering.eq) ∧
       ¬(Day2.opponentCmpPlayer a b = some Ordering.lt ∧
          Day2.opponentCmpPlayer a b = some Ordering.eq)) ∧
      Day2.opponentCmpPlayer a b = (Day2.playerCmpOpponent b a).map Ordering.swap ∧
      Day2.playerCmpOpponent b a = (Day2.opponentCmpPlayer a b).map Ordering.swap := by
  decide

/-- C10: the empty calorie input yields zero groups, and both parts answer 0
rather than erroring. -/
theorem c10_empty_input_zero :
    Day1.part1 "" = some 0 ∧ Day1.part2 "" = some 0 :=
  ⟨rfl, rfl⟩

/-- C3 (failing input): the Part 2 group `aa`, `bb`, `cc` has no character
common to its three rucksacks (second conjunct), yet `part2` scores it as 3,
the priority of `c`: the accumulator-is-empty seed test of `Group::score`
re-fires mid-fold and silently restarts the intersection. -/
theorem c3_group_scores_despite_empty_intersection :
    Day3.part2 "aa\nbb\ncc" = Except.ok 3 ∧
    (['a', 'a'].filter (fun d => ['b', 'b'].contains d && ['c', 'c'].contains d)) = [] :=
  ⟨rfl, rfl⟩

/-- C5 (counterexample): an input beginning with a blank line does not yield a
leading zero group: the zero-initialized total absorbs the following number,
so `"\n100"` yields `[100]`, not `[0, 100]`. -/
theorem c5_leading_blank_cex :
    rustLines "\n100" = [[], ['1', '0', '0']] ∧
    Day1.group_stashes "\n100" = some [100] :=
  ⟨rfl, rfl⟩

/-- C9 (counterexample): a one-line input produces a single one-rucksack group
which is scored successfully, so a group with fewer than three rucksacks does
produce a score. -/
theorem c9_partial_group_cex :
    rustLines "aa" = [['a', 'a']] ∧ Day3.part2 "aa" = Except.ok 1 :=
  ⟨rfl, rfl⟩

/-- C4 (counterexample): the three lines `ab`, `ac`, `ad` have full character
sets sharing exactly the character `a` (first conjunct), yet Part 2 fails:
`Group::parse` first validates each line as a rucksack, and the halves `a`
and `b` of the first line share nothing. -/
theorem c4_group_parse_halving_cex :
    (['a', 'b'].filter (fun d => ['a', 'c'].contains d && ['a', 'd'].contains d)) = ['a'] ∧
    Day3.Rucksack.parse ['a', 'b'] = Except.error Day3.Err.noIntersection ∧
    Day3.part2 "ab\nac\nad" = Except.error Day3.Err.noIntersection :=
  ⟨rfl, rfl, rfl⟩

/-- C8 (counterexample): the line `A¥X` consists of exactly 3 characters with
a valid opponent token `A` and player token `X`, but its UTF-8 byte length is
4, so both parsers reject it: the length test counts bytes, not characters. -/
theorem c8_byte_length_cex :
    (['A', '\xa5', 'X'] : List Char).length = 3 ∧
    Day2.OpponentMove.parse (some 'A') = some Day2.OpponentMove.Rock ∧
    Day2.PlayerMove.parse (some 'X') = some Day2.PlayerMove.Rock ∧
    Day2.parse_round ['A', '\xa5', 'X'] = none ∧
    Day2.parse_constraint ['A', '\xa5', 'X'] = none :=
  ⟨rfl, rfl, rfl, rfl, rfl⟩

/-- C5 (amended): a blank line appends a fresh zero total (so a blank final
line yields a trailing zero group), but a single leading blank line followed
by a number contributes no extra group: the number accumulates into the
zero-initialized total. A leading zero group survives only when the blank is
followed by another blank line or end of input. -/
theorem c5_blank_groups_amended :
    (∀ ls : List (List Char),
        Day1.group_stashes_lines (ls ++ [[]])
          = (Day1.group_stashes_lines ls).map (fun e => e ++ [0])) ∧
    (∀ (v : List Char) (n : Nat) (ls : List (List Char)),
        Day1.parse_calories v = some n →
        Day1.group_stashes_lines ([] :: v :: ls)
          = Day1.group_stashes_lines (v :: ls)) ∧
    Day1.group_stashes "\n" = some [0] ∧
    Day1.group_stashes "\n\n100" = some [0, 100] ∧
    Day1.group_stashes "100\n\n" = some [100, 0] := by
  refine ⟨?_, ?_, rfl, rfl, rfl⟩
  · intro ls
    rw [Day1.group_stashes_lines, Day1.group_stashes_lines, List.foldlM_append]
    cases h : List.foldlM Day1.groupStep [] ls with
    | none => rfl
    | some elves => rfl
  · intro v n ls h
    have h2 : Day1.groupStep [] v = some [n] := by
      cases v with
      | nil => rw [show Day1.parse_calories [] = none from rfl] at h; cases h
      | cons a t =>
        rw [Day1.groupStep, if_neg (by simp), h]
    have h1 : Day1.groupStep [0] v = some [n] := by
      cases v with
      | nil => rw [show Day1.parse_calories [] = none from rfl] at h; cases h
      | cons a t =>
        rw [Day1.groupStep, if_neg (by simp), h]
        simp [Day1.addToLast]
    rw [Day1.group_stashes_lines, Day1.group_stashes_lines, List.foldlM_cons,
      List.foldlM_cons]
    rw [h2, show Day1.groupStep [] [] = some ([0] : List Nat) from rfl]
    show List.foldlM Day1.groupStep [0] (v :: ls)
        = (some [n] >>= fun init => List.foldlM Day1.groupStep init ls)
    rw [List.foldlM_cons, h1]

/-- C9 (amended): the lines are consumed in chunks of three with a final
shorter chunk when the line count is not a multiple of three: every chunk
except possibly the last has exactly 3 lines, every chunk has 1 to 3 lines,
the chunks cover the input, and a final partial group is parsed and scored
like any other group (the 4-line input scores its final 1-line group). -/
theorem c9_chunks_amended :
    (∀ (ls : List (List Char)),
        (∀ c ∈ (Day3.chunks3 ls).dropLast, c.length = 3) ∧
        (∀ c ∈ Day3.chunks3 ls, 1 ≤ c.length ∧ c.length ≤ 3) ∧
        (Day3.chunks3 ls).flatten = ls) ∧
    Day3.part2 "ara\nbrb\ncrc\naa" = Except.ok 19 := by
  refine ⟨fun ls => ?_, rfl⟩
  induction ls using Day3.chunks3.induct with
  | case1 => simp [Day3.chunks3]
  | case2 a => simp [Day3.chunks3]
  | case3 a b => simp [Day3.chunks3]
  | case4 a b c rest ih =>
    obtain ⟨ih1, ih2, ih3⟩ := ih
    have hstep : Day3.chunks3 (a :: b :: c :: rest)
        = [a, b, c] :: Day3.chunks3 rest := rfl
    refine ⟨?_, ?_, ?_⟩
    · intro cc hcc
      rw [hstep] at hcc
      cases hr : Day3.chunks3 rest with
      | nil => rw [hr] at hcc; simp at hcc
      | cons q qs =>
        rw [hr, List.dropLast_cons₂] at hcc
        rcases List.mem_cons.mp hcc with hcc | hcc
        · rw [hcc]; rfl
        · refine ih1 cc ?_
          rw [hr]
          exact hcc
    · intro cc hcc
      rw [hstep] at hcc
      rcases List.mem_cons.mp hcc with hcc | hcc
      · rw [hcc]
        exact ⟨by simp, by simp⟩
      · exact ih2 cc hcc
    · rw [hstep, List.flatten_cons, ih3]
      rfl

/-! ### The priority table -/

theorem char_toNat_ofNat (n : Nat) (h : n < 55296) : (Char.ofNat n).toNat = n := by
  unfold Char.ofNat
  split
  · rfl
  · exact absurd (Or.inl h) (by assumption)

theorem isAlpha_iff (c : Char) :
    c.isAlpha = true ↔ (97 ≤ c.toNat ∧ c.toNat ≤ 122) ∨ (65 ≤ c.toNat ∧ c.toNat ≤ 90) := by
  simp only [Char.isAlpha, Char.isUpper, Char.isLower, Bool.or_eq_true, Bool.and_eq_true,
    decide_eq_true_eq]
  constructor
  · rintro (⟨h1, h2⟩ | ⟨h1, h2⟩)
    · right
      exact ⟨h1, h2⟩
    · left
      exact ⟨h1, h2⟩
  · rintro (⟨h1, h2⟩ | ⟨h1, h2⟩)
    · right
      exact ⟨h1, h2⟩
    · left
      exact ⟨h1, h2⟩

/-- Priority of the lowercase range, in closed form. -/
theorem priority_lower (c : Char) (h1 : 97 ≤ c.toNat) (h2 : c.toNat ≤ 122) :
    Day3.calculate_priority c = Except.ok (c.toNat - 96) := by
  obtain ⟨n, hn1, hn2, rfl⟩ : ∃ n, 97 ≤ n ∧ n ≤ 122 ∧ Char.ofNat n = c :=
    ⟨c.toNat, h1, h2, Char.ofNat_toNat c⟩
  interval_cases n <;> rfl

/-- Priority of the uppercase range, in closed form. -/
theorem priority_upper (c : Char) (h1 : 65 ≤ c.toNat) (h2 : c.toNat ≤ 90) :
    Day3.calculate_priority c = Except.ok (c.toNat - 38) := by
  obtain ⟨n, hn1, hn2, rfl⟩ : ∃ n, 65 ≤ n ∧ n ≤ 90 ∧ Char.ofNat n = c :=
    ⟨c.toNat, h1, h2, Char.ofNat_toNat c⟩
  interval_cases n <;> rfl

theorem lookup_eq_none_of_keys {β : Type} (l : List (Char × β)) (c : Char)
    (h : ∀ p ∈ l, p.1 ≠ c) : List.lookup c l = none := by
  induction l with
  | nil => rfl
  | cons q t ih =>
    obtain ⟨k, b⟩ := q
    rw [List.lookup]
    have hk : (c == k) = false :=
      beq_eq_false_iff_ne.mpr (fun e => h (k, b) (by simp) e.symm)
    rw [hk]
    exact ih (fun p hp => h p (by simp [hp]))

theorem mem_keys_of_lookup {β : Type} (l : List (Char × β)) (c : Char) (v : β)
    (h : List.lookup c l = some v) : c ∈ l.map Prod.fst := by
  induction l with
  | nil => cases h
  | cons q t ih =>
    obtain ⟨k, b⟩ := q
    rw [List.lookup] at h
    by_cases hk : (c == k) = true
    · simp only [List.map_cons, List.mem_cons]
      exact Or.inl (beq_iff_eq.mp hk)
    · have hk' : (c == k) = false := by
        revert hk
        cases c == k <;> simp
      rw [hk'] at h
      simp only [List.map_cons, List.mem_cons]
      exact Or.inr (ih h)

/-- Every key of the priority table is an ASCII letter. -/
theorem priority_keys_bound :
    ∀ k ∈ Day3.priorityPairs.map Prod.fst,
      (97 ≤ k.toNat ∧ k.toNat ≤ 122) ∨ (65 ≤ k.toNat ∧ k.toNat ≤ 90) := by decide

/-- Looking up any character outside the 52 letters fails. -/
theorem priority_outside (c : Char)
    (h : ¬((97 ≤ c.toNat ∧ c.toNat ≤ 122) ∨ (65 ≤ c.toNat ∧ c.toNat ≤ 90))) :
    Day3.calculate_priority c = Except.error Day3.Err.noPriority := by
  have hdef : Day3.calculate_priority c
      = match List.lookup c Day3.priorityPairs with
        | some p => Except.ok p
        | none => Except.error Day3.Err.noPriority := rfl
  cases hl : List.lookup c Day3.priorityPairs with
  | none => rw [hdef, hl]
  | some v => exact absurd (priority_keys_bound c (mem_keys_of_lookup _ c v hl)) h

/-- C7: the priority mapping sends the 52 letters bijectively onto 1..52 with
the four documented anchor values, and any other character fails with the
priority error. -/
theorem c7_priority_bijection :
    (Day3.calculate_priority 'a' = Except.ok 1 ∧
     Day3.calculate_priority 'z' = Except.ok 26 ∧
     Day3.calculate_priority 'A' = Except.ok 27 ∧
     Day3.calculate_priority 'Z' = Except.ok 52) ∧
    (∀ c : Char, c.isAlpha = true →
      ∃ n : Nat, Day3.calculate_priority c = Except.ok n ∧ 1 ≤ n ∧ n ≤ 52) ∧
    (∀ (c₁ c₂ : Char) (n : Nat), Day3.calculate_priority c₁ = Except.ok n →
      Day3.calculate_priority c₂ = Except.ok n → c₁ = c₂) ∧
    (∀ n : Nat, 1 ≤ n → n ≤ 52 →
      ∃ c : Char, c.isAlpha = true ∧ Day3.calculate_priority c = Except.ok n) ∧
    (∀ c : Char, c.isAlpha = false →
      Day3.calculate_priority c = Except.error Day3.Err.noPriority) := by
  have hval : ∀ (c : Char) (n : Nat), Day3.calculate_priority c = Except.ok n →
      ((97 ≤ c.toNat ∧ c.toNat ≤ 122) ∧ n = c.toNat - 96) ∨
        ((65 ≤ c.toNat ∧ c.toNat ≤ 90) ∧ n = c.toNat - 38) := by
    intro c n hc
    have hmem : (97 ≤ c.toNat ∧ c.toNat ≤ 122) ∨ (65 ≤ c.toNat ∧ c.toNat ≤ 90) := by
      by_contra hout
      rw [priority_outside c hout] at hc
      cases hc
    rcases hmem with hm | hm
    · left
      refine ⟨hm, ?_⟩
      rw [priority_lower c hm.1 hm.2] at hc
      cases hc
      rfl
    · right
      refine ⟨hm, ?_⟩
      rw [priority_upper c hm.1 hm.2] at hc
      cases hc
      rfl
  refine ⟨⟨rfl, rfl, rfl, rfl⟩, ?_, ?_, ?_, ?_⟩
  · intro c hc
    rcases (isAlpha_iff c).mp hc with hm | hm
    · exact ⟨c.toNat - 96, priority_lower c hm.1 hm.2, by omega, by omega⟩
    · exact ⟨c.toNat - 38, priority_upper c hm.1 hm.2, by omega, by omega⟩
  · intro c₁ c₂ n h1 h2
    have e1 := hval c₁ n h1
    have e2 := hval c₂ n h2
    have htn : c₁.toNat = c₂.toNat := by
      rcases e1 with ⟨hb1, hn1⟩ | ⟨hb1, hn1⟩ <;> rcases e2 with ⟨hb2, hn2⟩ | ⟨hb2, hn2⟩ <;>
        omega
    have := congrArg Char.ofNat htn
    rwa [Char.ofNat_toNat, Char.ofNat_toNat] at this
  · intro n hn1 hn2
    rcases le_or_lt n 26 with hn | hn
    · refine ⟨Char.ofNat (96 + n), ?_, ?_⟩
      · rw [isAlpha_iff, char_toNat_ofNat (96 + n) (by omega)]
        omega
      · rw [priority_lower (Char.ofNat (96 + n))
            (by rw [char_toNat_ofNat (96 + n) (by omega)]; omega)
            (by rw [char_toNat_ofNat (96 + n) (by omega)]; omega)]
        rw [char_toNat_ofNat (96 + n) (by omega)]
        congr 1
        omega
    · refine ⟨Char.ofNat (38 + n), ?_, ?_⟩
      · rw [isAlpha_iff, char_toNat_ofNat (38 + n) (by omega)]
        omega
      · rw [priority_upper (Char.ofNat (38 + n))
            (by rw [char_toNat_ofNat (38 + n) (by omega)]; omega)
            (by rw [char_toNat_ofNat (38 + n) (by omega)]; omega)]
        rw [char_toNat_ofNat (38 + n) (by omega)]
        congr 1
        omega
  · intro c hc
    refine priority_outside c ?_
    intro hm
    rw [show c.isAlpha = true from (isAlpha_iff c).mpr hm] at hc
    cases hc

/-- Unfolding of `Group::score` over a three-rucksack group whose running
intersection stays nonempty (so the accumulator-is-empty seed test fires only
on the first rucksack). -/
theorem group_score_three (r1 r2 r3 : Day3.Rucksack)
    (h1 : r1.contents.dedup ≠ [])
    (h2 : (r1.contents.dedup.filter fun d => (r2.contents.dedup).contains d) ≠ []) :
    Day3.group_score [r1, r2, r3] =
      match ((r1.contents.dedup.filter fun d => (r2.contents.dedup).contains d).filter
          fun d => (r3.contents.dedup).contains d) with
      | [] => Except.error Day3.Err.noIntersection
      | [c0] => Day3.calculate_priority c0
      | _ => Except.error Day3.Err.ambiguousIntersection := by
  have e1 : (r1.contents.dedup).isEmpty = false := List.isEmpty_eq_false.mpr h1
  have e2 : (r1.contents.dedup.filter fun d =>
      (r2.contents.dedup).contains d).isEmpty = false := List.isEmpty_eq_false.mpr h2
  rw [Day3.group_score]
  simp only [List.foldl_cons, List.foldl_nil, List.isEmpty_nil, if_true, e1, e2,
    Bool.false_eq_true, if_false]
theorem eq_singleton_of_nodup (l : List Char) (c : Char) (hn : l.Nodup) (hc : c ∈ l)
    (hall : ∀ d ∈ l, d = c) : l = [c] := by
  cases l with
  | nil => cases hc
  | cons d t =>
    have hd : d = c := hall d (by simp)
    subst hd
    cases t with
    | nil => rfl
    | cons e u =>
      have he : e = d := hall e (by simp)
      rw [List.nodup_cons] at hn
      exfalso
      apply hn.1
      rw [he]
      exact List.mem_cons_self d u

theorem group_parse_cons (l : List Char) (t : List (List Char)) :
    Day3.group_parse (l :: t)
      = match Day3.Rucksack.parse l with
        | Except.error e => Except.error e
        | Except.ok r =>
          match Day3.group_parse t with
          | Except.error e => Except.error e
          | Except.ok rs => Except.ok (r :: rs) := by
  rw [Day3.group_parse, Day3.group_parse, List.mapM_cons]
  cases Day3.Rucksack.parse l with
  | error e => rfl
  | ok r =>
    cases List.mapM Day3.Rucksack.parse t with
    | error e => rfl
    | ok rs => rfl

/-- C4 (amended): each line's full character set (not its halves) is what the
group intersection consumes, and any three rucksacks whose full sets share
exactly one alphabetic character are scored successfully; but group parsing
succeeds exactly when every line is individually a valid rucksack, so the
halving failure modes of `Rucksack::parse` also apply. -/
theorem c4_group_full_sets_amended :
    (∀ (r1 r2 r3 : Day3.Rucksack) (c : Char),
        (∀ d : Char, (d ∈ r1.contents ∧ d ∈ r2.contents ∧ d ∈ r3.contents) ↔ d = c) →
        c.isAlpha = true →
        Day3.group_score [r1, r2, r3] = Day3.calculate_priority c ∧
        ∃ n : Nat, Day3.group_score [r1, r2, r3] = Except.ok n) ∧
    (∀ ls : List (List Char),
        (∃ rs, Day3.group_parse ls = Except.ok rs) ↔
          ∀ l ∈ ls, ∃ r, Day3.Rucksack.parse l = Except.ok r) := by
  constructor
  · intro r1 r2 r3 c hshare halpha
    have hc1 : c ∈ r1.contents := ((hshare c).mpr rfl).1
    have hc2 : c ∈ r2.contents := ((hshare c).mpr rfl).2.1
    have hc3 : c ∈ r3.contents := ((hshare c).mpr rfl).2.2
    have hcA : c ∈ r1.contents.dedup.filter fun d => (r2.contents.dedup).contains d := by
      rw [List.mem_filter]
      exact ⟨List.mem_dedup.mpr hc1,
        List.elem_eq_true_of_mem (List.mem_dedup.mpr hc2)⟩
    have hcB : c ∈ (r1.contents.dedup.filter fun d => (r2.contents.dedup).contains d).filter
        fun d => (r3.contents.dedup).contains d := by
      rw [List.mem_filter]
      exact ⟨hcA, List.elem_eq_true_of_mem (List.mem_dedup.mpr hc3)⟩
    have hsingle : ((r1.contents.dedup.filter fun d => (r2.contents.dedup).contains d).filter
        fun d => (r3.contents.dedup).contains d) = [c] := by
      refine eq_singleton_of_nodup _ c ?_ hcB ?_
      · exact List.Nodup.filter _ (List.Nodup.filter _ (List.nodup_dedup _))
      · intro d hd
        rw [List.mem_filter] at hd
        obtain ⟨hdA, hd3⟩ := hd
        rw [List.mem_filter] at hdA
        obtain ⟨hd1, hd2⟩ := hdA
        refine (hshare d).mp ⟨List.mem_dedup.mp hd1, ?_, ?_⟩
        · exact List.mem_dedup.mp (List.mem_of_elem_eq_true hd2)
        · exact List.mem_dedup.mp (List.mem_of_elem_eq_true hd3)
    have hne1 : r1.contents.dedup ≠ [] := by
      intro e
      have hm := List.mem_dedup.mpr hc1
      rw [e] at hm
      cases hm
    have hne2 : (r1.contents.dedup.filter fun d => (r2.contents.dedup).contains d) ≠ [] := by
      intro e
      rw [e] at hcA
      cases hcA
    have hscore := group_score_three r1 r2 r3 hne1 hne2
    rw [hsingle] at hscore
    refine ⟨hscore, ?_⟩
    rcases (isAlpha_iff c).mp halpha with hm | hm
    · exact ⟨c.toNat - 96, by rw [hscore]; exact priority_lower c hm.1 hm.2⟩
    · exact ⟨c.toNat - 38, by rw [hscore]; exact priority_upper c hm.1 hm.2⟩
  · intro ls
    induction ls with
    | nil =>
      constructor
      · intro _ l hl
        cases hl
      · intro _
        exact ⟨[], rfl⟩
    | cons l t ih =>
      rw [group_parse_cons]
      constructor
      · rintro ⟨rs, hrs⟩ l' hl'
        cases hp : Day3.Rucksack.parse l with
        | error e =>
          rw [hp] at hrs
          cases hrs
        | ok r =>
          rw [hp] at hrs
          cases hg : Day3.group_parse t with
          | error e =>
            rw [hg] at hrs
            cases hrs
          | ok rs' =>
            rcases List.mem_cons.mp hl' with rfl | hl'
            · exact ⟨r, hp⟩
            · exact (ih.mp ⟨rs', hg⟩) l' hl'
      · intro hall
        obtain ⟨r, hr⟩ := hall l (by simp)
        obtain ⟨rs, hrs⟩ := ih.mpr (fun l' hl' => hall l' (by simp [hl']))
        rw [hr, hrs]
        exact ⟨r :: rs, rfl⟩

theorem char_utf8Size_pos (c : Char) : 1 ≤ c.utf8Size := Char.utf8Size_pos c

theorem byteLen_eq_zero (t : List Char) (h : byteLen t = 0) : t = [] := by
  cases t with
  | nil => rfl
  | cons c u =>
    exfalso
    have h1 := Char.utf8Size_pos c
    have h2 : byteLen (c :: u) = c.utf8Size + byteLen u := by
      simp [byteLen]
    omega

theorem opponent_parse_char (ch : Char) (o : Day2.OpponentMove)
    (h : Day2.OpponentMove.parse (some ch) = some o) :
    ch.utf8Size = 1 ∧ (ch = 'A' ∨ ch = 'B' ∨ ch = 'C') := by
  rw [Day2.OpponentMove.parse] at h
  split_ifs at h with hA hB hC
  · subst hA
    exact ⟨by decide, Or.inl rfl⟩
  · subst hB
    exact ⟨by decide, Or.inr (Or.inl rfl)⟩
  · subst hC
    exact ⟨by decide, Or.inr (Or.inr rfl)⟩

theorem player_parse_char (ch : Char) (p : Day2.PlayerMove)
    (h : Day2.PlayerMove.parse (some ch) = some p) :
    ch.utf8Size = 1 ∧ (ch = 'X' ∨ ch = 'Y' ∨ ch = 'Z') := by
  rw [Day2.PlayerMove.parse] at h
  split_ifs at h with hX hY hZ
  · subst hX
    exact ⟨by decide, Or.inl rfl⟩
  · subst hY
    exact ⟨by decide, Or.inr (Or.inl rfl)⟩
  · subst hZ
    exact ⟨by decide, Or.inr (Or.inr rfl)⟩

theorem constraint_parse_char (ch : Char) (k : Day2.PlayerConstraint)
    (h : Day2.PlayerConstraint.parse (some ch) = some k) :
    ch.utf8Size = 1 ∧ (ch = 'X' ∨ ch = 'Y' ∨ ch = 'Z') := by
  rw [Day2.PlayerConstraint.parse] at h
  split_ifs at h with hX hY hZ
  · subst hX
    exact ⟨by decide, Or.inl rfl⟩
  · subst hY
    exact ⟨by decide, Or.inr (Or.inl rfl)⟩
  · subst hZ
    exact ⟨by decide, Or.inr (Or.inr rfl)⟩

theorem parseLine_shape {β : Type} (second : Option Char → Option β)
    (hnone : second none = none)
    (hsize : ∀ (ch : Char) (b : β), second (some ch) = some b → ch.utf8Size = 1)
    (cs : List Char) (o : Day2.OpponentMove) (p : β) :
    Day2.parseLine second cs = some (o, p) ↔
      ∃ c1 c2 c3 : Char, cs = [c1, c2, c3] ∧
        Day2.OpponentMove.parse (some c1) = some o ∧ c2.utf8Size = 1 ∧
        second (some c3) = some p := by
  constructor
  · intro h
    rw [Day2.parseLine] at h
    by_cases hb : byteLen cs = 3
    · rw [if_pos hb] at h
      cases cs with
      | nil => cases h
      | cons c1 t1 =>
        cases t1 with
        | nil =>
          cases ho : Day2.OpponentMove.parse ([c1] : List Char)[0]? with
          | none => rw [ho] at h; cases h
          | some o' =>
            rw [ho, show ([c1] : List Char)[2]? = none from rfl, hnone] at h
            cases h
        | cons c2 t2 =>
          cases t2 with
          | nil =>
            cases ho : Day2.OpponentMove.parse ([c1, c2] : List Char)[0]? with
            | none => rw [ho] at h; cases h
            | some o' =>
              rw [ho, show ([c1, c2] : List Char)[2]? = none from rfl, hnone] at h
              cases h
          | cons c3 t3 =>
            cases ho : Day2.OpponentMove.parse (c1 :: c2 :: c3 :: t3)[0]? with
            | none => rw [ho] at h; cases h
            | some o' =>
              rw [ho] at h
              cases hp : second (c1 :: c2 :: c3 :: t3)[2]? with
              | none => rw [hp] at h; cases h
              | some p' =>
                rw [hp] at h
                have hop : o' = o ∧ p' = p := by
                  have := Option.some_inj.mp h
                  exact ⟨congrArg Prod.fst this, congrArg Prod.snd this⟩
                obtain ⟨rfl, rfl⟩ := hop
                have hg1 : (c1 :: c2 :: c3 :: t3)[0]? = some c1 :=
                  List.getElem?_cons_zero
                have hg3 : (c1 :: c2 :: c3 :: t3)[2]? = some c3 := by
                  rw [List.getElem?_cons_succ, List.getElem?_cons_succ,
                    List.getElem?_cons_zero]
                rw [hg1] at ho
                rw [hg3] at hp
                have ho1 : Day2.OpponentMove.parse (some c1) = some o' := ho
                have hp3 : second (some c3) = some p' := hp
                have hs1 : c1.utf8Size = 1 := (opponent_parse_char c1 o' ho1).1
                have hs3 : c3.utf8Size = 1 := hsize c3 p' hp3
                have hs2 : 1 ≤ c2.utf8Size := Char.utf8Size_pos c2
                have hbl : byteLen (c1 :: c2 :: c3 :: t3)
                    = c1.utf8Size + (c2.utf8Size + (c3.utf8Size + byteLen t3)) := by
                  simp [byteLen]
                have ht3 : t3 = [] := byteLen_eq_zero t3 (by omega)
                subst ht3
                exact ⟨c1, c2, c3, rfl, ho1, by omega, hp3⟩
    · rw [if_neg hb] at h
      cases h
  · rintro ⟨c1, c2, c3, rfl, ho, hc2, hp3⟩
    rw [Day2.parseLine]
    have hs1 : c1.utf8Size = 1 := (opponent_parse_char c1 o ho).1
    have hs3 : c3.utf8Size = 1 := hsize c3 p hp3
    have hb : byteLen [c1, c2, c3] = 3 := by
      simp [byteLen, hs1, hc2, hs3]
    rw [if_pos hb]
    have hg1 : ([c1, c2, c3] : List Char)[0]? = some c1 := List.getElem?_cons_zero
    have hg3 : ([c1, c2, c3] : List Char)[2]? = some c3 := by
      rw [List.getElem?_cons_succ, List.getElem?_cons_succ, List.getElem?_cons_zero]
    rw [hg1, ho, hg3, hp3]

/-- C8 (amended): a line parses successfully exactly when it consists of
three characters whose first is an opponent token, whose third is a player
token, and whose middle character is a single UTF-8 byte (the separator is
consumed, never validated): the length-3 test of the source counts bytes,
not characters. Both the direct and the constraint mode follow this shape. -/
theorem c8_parse_exact_amended :
    (∀ (cs : List Char) (o : Day2.OpponentMove) (p : Day2.PlayerMove),
        Day2.parse_round cs = some (o, p) ↔
          ∃ c1 c2 c3 : Char, cs = [c1, c2, c3] ∧
            Day2.OpponentMove.parse (some c1) = some o ∧ c2.utf8Size = 1 ∧
            Day2.PlayerMove.parse (some c3) = some p) ∧
    (∀ (cs : List Char) (o : Day2.OpponentMove) (k : Day2.PlayerConstraint),
        Day2.parse_constraint cs = some (o, k) ↔
          ∃ c1 c2 c3 : Char, cs = [c1, c2, c3] ∧
            Day2.OpponentMove.parse (some c1) = some o ∧ c2.utf8Size = 1 ∧
            Day2.PlayerConstraint.parse (some c3) = some k) := by
  constructor
  · intro cs o p
    exact parseLine_shape Day2.PlayerMove.parse rfl
      (fun ch b hb => (player_parse_char ch b hb).1) cs o p
  · intro cs o k
    exact parseLine_shape Day2.PlayerConstraint.parse rfl
      (fun ch b hb => (constraint_parse_char ch b hb).1) cs o k

end Aoc22
